import Mathlib

/-!
Verification development for the `fetch_data` / `crunch_data` pipeline
(problem_1 of the C code clinic repository).

The embedding is shallow:
* C `float` values carried through arithmetic are idealised as exact
  rationals (`ℚ`); a possible IEEE NaN outcome is made explicit by the
  `Crunch.CF` type.
* C arrays are Lean lists; an out-of-range array read (undefined
  behaviour in C) is modelled as `Option.none`.
* The 32-bit type-punned comparator of `crunch_data.c` is modelled on
  raw IEEE-754 single-precision bit patterns (`Nat` below `2^32`), with
  signed-integer overflow modelled as two's-complement wrap-around.
-/

namespace Crunch

/-- An idealised C `float` result: either a finite value (carried as an
exact rational) or IEEE NaN (as produced by `0.0f/0`). -/
inductive CF where
  | nan : CF
  | fin : ℚ → CF
deriving DecidableEq

/-- Embeds `get_mean` of `crunch_data.c`: `total` accumulates the array
left to right (`for(x=0;x<c;x++) total += v[x]`) and the function
returns `total/c`.  For `c = 0` the C division `0.0f/0` yields IEEE NaN,
modelled by `CF.nan`; for `c > 0` on finite inputs the quotient is
finite. -/
def get_mean (v : List ℚ) : CF :=
  if v.length = 0 then CF.nan
  else CF.fin ((v.foldl (· + ·) 0) / (v.length : ℚ))

/-- Embeds `get_median` of `crunch_data.c` at the rational level,
together with its side effect.  The C function first runs
`qsort(v,c,sizeof(float),compare)` — an in-place sort of the caller's
array; on non-negative finite floats the type-punned comparator orders
numerically (proved below on bit patterns), so the sort is modelled as
ascending numeric insertion sort.  It then returns `v[c/2+1]` when `c`
is odd and `(v[c/2] + v[c/2+1])/2` when `c` is even, exactly as in the
source (lines 198–201).  An out-of-range read returns `none`.  The
second component is the array contents after the call (the sorted
permutation left behind by `qsort`). -/
def get_median_run (v : List ℚ) : Option ℚ × List ℚ :=
  let s := v.insertionSort (· ≤ ·)
  let c := v.length
  (if c % 2 = 1 then s.get? (c / 2 + 1)
   else
     match s.get? (c / 2), s.get? (c / 2 + 1) with
     | some a, some b => some ((a + b) / 2)
     | _, _ => none,
   s)

/-- Embeds `set_date` of `crunch_data.c`: for `x = 0..9` it copies
`row_string[x]` into `date_string[x]`, replacing `'_'` by `'-'` (then
null-terminates, which the list model leaves implicit).  Reading
`row_string[x]` on a row shorter than 10 characters would be out of
bounds in C; the model supplies a default character there. -/
def set_date (row : List Char) : List Char :=
  (List.range 10).map fun x =>
    if row.getD x (Char.ofNat 0) = '_' then '-' else row.getD x (Char.ofNat 0)

/-- Two's-complement reading of a 32-bit pattern as a C `int`. -/
def toInt32 (n : Nat) : Int :=
  if n < 2 ^ 31 then (n : Int) else (n : Int) - 2 ^ 32

/-- Wrap an integer into the `int` range `[-2^31, 2^31)`.  Models the
two's-complement wrap-around that common implementations give an
overflowing signed subtraction (ISO C leaves the overflow undefined). -/
def wrap32 (i : Int) : Int := (i + 2 ^ 31) % 2 ^ 32 - 2 ^ 31

/-- Embeds `compare` of `crunch_data.c`: the qsort comparator
reinterprets its two `float` arguments' byte representations as signed
32-bit integers and returns their difference, `*(int *)a - *(int *)b`.
Arguments are the raw IEEE-754 single-precision bit patterns. -/
def compare (a b : Nat) : Int := wrap32 (toInt32 a - toInt32 b)

/-- `a` may precede `b` under the comparator (comparator result ≤ 0). -/
def cmpLe (a b : Nat) : Prop := compare a b ≤ 0

instance : DecidableRel cmpLe := fun a b => by unfold cmpLe; infer_instance

/-- `qsort` with `compare`, modelled as a deterministic comparison sort
(insertion sort).  For a consistent comparator C's `qsort` produces the
comparator-sorted permutation, which is what insertion sort produces;
for an inconsistent comparator (which `compare` is on patterns of mixed
sign, through wrap-around) `qsort` guarantees nothing and the model
fixes one deterministic outcome. -/
def qsortBits (l : List Nat) : List Nat := l.insertionSort cmpLe

/-- Magnitude of the float with 31-bit pattern `n` (sign bit already
stripped), scaled by `2^149` to a natural number: a subnormal (exponent
field 0) has value `m·2^(-149)`, a normal `(2^23+m)·2^(e-150) =
(2^23+m)·2^(e-1) / 2^149`. -/
def scaledMag (n : Nat) : Nat :=
  if n / 2 ^ 23 = 0 then n % 2 ^ 23
  else (2 ^ 23 + n % 2 ^ 23) * 2 ^ (n / 2 ^ 23 - 1)

/-- Exact rational value of the finite IEEE-754 single-precision float
with bit pattern `n`. -/
def floatVal (n : Nat) : ℚ :=
  if n < 2 ^ 31 then (scaledMag n : ℚ) / 2 ^ 149
  else -((scaledMag (n % 2 ^ 31) : ℚ) / 2 ^ 149)

/-- A pattern denoting a non-negative finite float: sign bit clear and
exponent field below 255. -/
def NonnegFinite (n : Nat) : Prop := n < 2 ^ 31 ∧ n / 2 ^ 23 < 255

instance : DecidablePred NonnegFinite := fun n => by
  unfold NonnegFinite; infer_instance

/-- `get_median` at the bit level: `qsort` with the type-punned
comparator on the raw patterns, then the same index selection as the
source; the even-case average is taken on the decoded values. -/
def get_medianBits (v : List Nat) : Option ℚ :=
  let s := qsortBits v
  let c := v.length
  if c % 2 = 1 then (s.get? (c / 2 + 1)).map floatVal
  else
    match s.get? (c / 2), s.get? (c / 2 + 1) with
    | some a, some b => some ((floatVal a + floatVal b) / 2)
    | _, _ => none

/-- One merged row as consumed by the statistics half: the three numeric
fields (air temperature, barometric pressure, wind speed) parsed from
the row text by the `strtof` chain in `process_row`.  The text-to-float
parse is abstracted: a row carries its three values. -/
structure MergedRow where
  v1 : ℚ
  v2 : ℚ
  v3 : ℚ

/-- The three growing columns of `crunch_data.c`'s `main`
(`air_temp`, `bar_press`, `wind_speed`). -/
structure Columns where
  air : List ℚ
  bar : List ℚ
  wind : List ℚ

/-- Bytes `main` allocates for each column immediately before
processing row `n = row_count` (crunch_data.c:66-77):
`malloc(sizeof(float)*1)` = 4 bytes for the first row, then
`realloc(..., row_count*sizeof(float)+1)` = `4n+1` bytes — one byte
more than the `4n` already stored, three bytes short of the `4(n+1)`
the coming store needs. -/
def alloc_bytes (n : Nat) : Nat := if n = 0 then 4 else 4 * n + 1

/-- Embeds `process_row` of `crunch_data.c` together with the
allocation in `main`: the call stores the row's three parsed values at
index `n = row_count`, i.e. at byte range `[4n, 4n+4)` of each column
array.  The store is modelled only when that range lies inside the
bytes `main` just allocated for the column; otherwise it is an
out-of-bounds write (undefined behaviour in C), modelled `none`.  The
`strtof` parsing of the row text is abstracted: a row carries its
three values. -/
def process_row (st : Columns) (r : MergedRow) : Option Columns :=
  if 4 * (st.air.length + 1) ≤ alloc_bytes st.air.length then
    some ⟨st.air ++ [r.v1], st.bar ++ [r.v2], st.wind ++ [r.v3]⟩
  else none

/-- The accumulation loop of `crunch_data.c`'s `main`: starting from
empty columns, process each row in order, failing as soon as a store
falls outside its column's allocation. -/
def crunch_rows (rows : List MergedRow) : Option Columns :=
  rows.foldlM process_row ⟨[], [], []⟩

end Crunch

namespace Fetch

/-- C `isprint` in the default locale: the ASCII printable range
`0x20`–`0x7E`.  CR (`0x0D`), LF (`0x0A`) and NUL are not printable. -/
def cIsprint (c : Char) : Bool := 32 ≤ c.toNat && c.toNat ≤ 126

/-- Read the byte at `pos` of a fetched buffer.  `write_mem` stores the
page contents followed by one NUL (`mem->buffer[mem->size] = 0`), so
positions up to the content length read a defined byte; any position
past the NUL is an out-of-bounds read (undefined behaviour in C),
modelled as `none`. -/
def readByte (buf : List Char) (pos : Nat) : Option Char :=
  if h : pos < buf.length then some (buf.get ⟨pos, h⟩)
  else if pos = buf.length then some (Char.ofNat 0)
  else none

/-- The scanning loop of `write_line`
(`while(isprint(*text)) { putchar(*text); text++; }`): starting at
`pos`, advance while the byte read is printable and return the position
of the first non-printable byte.  The emitted characters are not
modelled, only consumption.  `fuel` exists for structural recursion;
callers supply more fuel than the buffer length, which never runs
out. -/
def scanP (buf : List Char) : Nat → Nat → Option Nat
  | 0, _ => none
  | fuel + 1, pos =>
    match readByte buf pos with
    | none => none
    | some c => if cIsprint c then scanP buf fuel (pos + 1) else some pos

/-- Embeds `write_line` of `fetch_data.c`: invoked on `buffer + start`
with column `offset`, it scans the printable run beginning at
`start + offset`, skips the two-byte CR/LF terminator (`text += 2`),
and returns the number of bytes consumed counted from `start`
(`return text - temp`).  `none` models an out-of-bounds read. -/
def write_line (buf : List Char) (start offset : Nat) : Option Nat :=
  match scanP buf (buf.length + 1) (start + offset) with
  | none => none
  | some stop => some (stop + 2 - start)

/-- The merge loop of `fetch_data.c`'s `main` restricted to the primary
source, which alone drives the shared offset: starting from `output =
0`, while `output < bytes_read` (the primary buffer's total length)
consume one primary line (`written = write_line(air_temp.buffer +
output, 0)`) and advance `output` by `written`.  Returns the final
offset; `none` models an out-of-bounds read or exhausted fuel. -/
def mergeLoop (buf : List Char) : Nat → Nat → Option Nat
  | 0, _ => none
  | fuel + 1, output =>
    if output < buf.length then
      match write_line buf output 0 with
      | none => none
      | some written => mergeLoop buf fuel (output + written)
    else some output

/-- A well-formed raw source: each line is a run of printable characters
terminated by CR LF, and the buffer is their concatenation. -/
def mkBuf (lines : List (List Char)) : List Char :=
  (lines.map fun l => l ++ [Char.ofNat 13, Char.ofNat 10]).flatten

end Fetch

/-- C1: the claim says a sorted odd column yields the element at index
`count/2` and an even column the average at indices `count/2 - 1` and
`count/2` (so `30.07` and `4.00` on the two examples).  The code instead
reads indices `count/2 + 1` (odd) and `count/2`, `count/2 + 1` (even):
on `[30.07, 29.91, 30.12]` it returns `30.12`, not `30.07`, and on
`[3, 5, 1, 7]` it returns `6`, not `4`. -/
theorem c1_median_index_eval :
    (Crunch.get_median_run [30.07, 29.91, 30.12]).1 = some (30.12 : ℚ) ∧
      (Crunch.get_median_run [3, 5, 1, 7]).1 = some (6 : ℚ) ∧
      (30.12 : ℚ) ≠ 30.07 ∧ (6 : ℚ) ≠ 4 := by
  refine ⟨?_, ?_, ?_, ?_⟩ <;>
    norm_num [Crunch.get_median_run, List.insertionSort, List.orderedInsert]

/-- C2: the claim says computing the median leaves the column's order
unchanged (sorting a copy).  The code sorts the caller's array in place:
after `get_median` on `[3, 1, 2]` the array holds `[1, 2, 3]`, not the
original order. -/
theorem c2_median_inplace_eval :
    (Crunch.get_median_run [3, 1, 2]).2 = [(1 : ℚ), 2, 3] ∧
      [(1 : ℚ), 2, 3] ≠ [3, 1, 2] := by
  refine ⟨?_, ?_⟩ <;>
    norm_num [Crunch.get_median_run, List.insertionSort, List.orderedInsert]

/-- C3: the claim says `mean` and `median` on an empty column fail with
an explicit `EmptyInputError`.  No such error exists in the code:
`get_mean` divides `0.0f` by `0`, producing IEEE NaN, and `get_median`
falls into the even branch and reads `v[0]` and `v[1]` of a zero-length
array (out of bounds, modelled `none`). -/
theorem c3_empty_column_eval :
    Crunch.get_mean [] = Crunch.CF.nan ∧
      (Crunch.get_median_run []).1 = none := by
  refine ⟨?_, ?_⟩ <;>
    norm_num [Crunch.get_mean, Crunch.get_median_run, List.insertionSort]

/-- Accumulating a list from the left starting at `a` adds `a` to the
list's sum. -/
theorem crunch_foldl_add (v : List ℚ) :
    ∀ a : ℚ, v.foldl (· + ·) a = a + v.sum := by
  induction v with
  | nil => intro a; simp
  | cons x xs ih =>
      intro a
      simp [List.foldl_cons, ih (a + x), List.sum_cons]
      ring

/-- C4: for every non-empty column, `get_mean` returns the sum of the
elements divided by the count, and multiplying that mean back by the
count recovers the sum exactly (the embedding carries floats as exact
rationals, so "within floating-point tolerance" becomes equality). -/
theorem c4_mean_sum (v : List ℚ) (h : v ≠ []) :
    Crunch.get_mean v = Crunch.CF.fin (v.sum / (v.length : ℚ)) ∧
      (v.sum / (v.length : ℚ)) * (v.length : ℚ) = v.sum := by
  have hlen : v.length ≠ 0 := by
    simpa [List.length_eq_zero] using h
  have hq : (v.length : ℚ) ≠ 0 := by exact_mod_cast hlen
  constructor
  · simp [Crunch.get_mean, hlen, crunch_foldl_add]
  · field_simp

/-- Witness for C4 at the spec's example column `[38.86, 39.00, 37.50]`:
the mean is `115.36/3`. -/
theorem c4_mean_sum_witness :
    Crunch.get_mean [38.86, 39.00, 37.50] =
      Crunch.CF.fin ((115.36 : ℚ) / 3) := by
  have h := (c4_mean_sum [38.86, 39.00, 37.50] (by simp)).1
  refine h.trans ?_
  norm_num

/-- C7: on any row of at least 10 characters, `set_date` produces
exactly the first 10 characters of the row with every underscore
replaced by a hyphen. -/
theorem c7_set_date (row : List Char) (h : 10 ≤ row.length) :
    Crunch.set_date row =
      (row.take 10).map fun c => if c = '_' then '-' else c := by
  apply List.ext_getElem
  · simp [Crunch.set_date]
    omega
  · intro i h1 h2
    have hi : i < 10 := by simpa [Crunch.set_date] using h1
    have hrow : i < row.length := by omega
    simp [Crunch.set_date, List.getElem_take, List.getElem_range,
      List.getElem?_eq_getElem hrow]

/-- Witness for C7 at the spec's example row
`2015_02_03 09:02:34 38.86  30.07   3.00`: the date field becomes
`2015-02-03`. -/
theorem c7_set_date_witness :
    Crunch.set_date ("2015_02_03 09:02:34 38.86  30.07   3.00".toList) =
        (("2015_02_03 09:02:34 38.86  30.07   3.00".toList).take 10).map
          (fun c => if c = '_' then '-' else c) ∧
      Crunch.set_date ("2015_02_03 09:02:34 38.86  30.07   3.00".toList) =
        "2015-02-03".toList := by
  refine ⟨c7_set_date _ (by decide), by decide⟩

/-- C8: the claim's invariant — each `accumulate(row)` appends exactly
one value to each of the three columns, keeping all lengths equal to
the rows processed — presupposes every store stays inside its column's
allocation.  `main`'s realloc (crunch_data.c:75-77) requests
`row_count*sizeof(float)+1 = 4n+1` bytes while the store at index `n`
needs `4(n+1)`: the first row fits in the 4 malloc'd bytes, and from
the second row onward every append writes past the allocation
(undefined behaviour) — on a two-row input the model's second append
already fails. -/
theorem c8_column_append_oob :
    Crunch.crunch_rows [⟨38.86, 30.07, 3.00⟩] =
        some ⟨[38.86], [30.07], [3.00]⟩ ∧
      Crunch.crunch_rows [⟨38.86, 30.07, 3.00⟩, ⟨39.00, 30.12, 5.00⟩] =
        none := by
  constructor
  · rfl
  · rfl

/-- On the `int` range the wrap-around is the identity. -/
theorem crunch_wrap32_eq (i : Int) (h1 : -(2 ^ 31) ≤ i) (h2 : i < 2 ^ 31) :
    Crunch.wrap32 i = i := by
  unfold Crunch.wrap32
  omega

/-- On sign-bit-clear patterns the comparator is an exact integer
difference: both operands read as non-negative `int`s, so the
subtraction cannot overflow. -/
theorem crunch_compare_nonneg (a b : Nat) (ha : a < 2 ^ 31)
    (hb : b < 2 ^ 31) : Crunch.compare a b = (a : Int) - (b : Int) := by
  unfold Crunch.compare Crunch.toInt32
  rw [if_pos ha, if_pos hb]
  apply crunch_wrap32_eq <;> omega

/-- On sign-bit-clear patterns the comparator's "may precede" relation
is the numeric order of the patterns. -/
theorem crunch_cmpLe_iff (a b : Nat) (ha : a < 2 ^ 31) (hb : b < 2 ^ 31) :
    Crunch.cmpLe a b ↔ a ≤ b := by
  unfold Crunch.cmpLe
  rw [crunch_compare_nonneg a b ha hb]
  omega

/-- Ordered insertion behaves the same under the comparator relation and
under `≤` as long as all patterns involved are sign-bit clear. -/
theorem crunch_orderedInsert_eq (x : Nat) (hx : x < 2 ^ 31) :
    ∀ l : List Nat, (∀ y ∈ l, y < 2 ^ 31) →
      List.orderedInsert Crunch.cmpLe x l =
        List.orderedInsert (· ≤ ·) x l := by
  intro l
  induction l with
  | nil => intro _; rfl
  | cons y ys ih =>
      intro hl
      have hy : y < 2 ^ 31 := hl y (by simp)
      have hys : ∀ z ∈ ys, z < 2 ^ 31 := fun z hz => hl z (by simp [hz])
      by_cases h : x ≤ y
      · simp [List.orderedInsert, (crunch_cmpLe_iff x y hx hy).2 h, h]
      · have h' : ¬ Crunch.cmpLe x y := fun hc =>
          h ((crunch_cmpLe_iff x y hx hy).1 hc)
        simp [List.orderedInsert, h', h, ih hys]

/-- Insertion sort behaves the same under the comparator relation and
under `≤` on lists of sign-bit-clear patterns. -/
theorem crunch_insertionSort_eq :
    ∀ l : List Nat, (∀ y ∈ l, y < 2 ^ 31) →
      List.insertionSort Crunch.cmpLe l = List.insertionSort (· ≤ ·) l := by
  intro l
  induction l with
  | nil => intro _; rfl
  | cons a l ih =>
      intro hl
      have ha : a < 2 ^ 31 := hl a (by simp)
      have hl' : ∀ y ∈ l, y < 2 ^ 31 := fun y hy => hl y (by simp [hy])
      have hmem : ∀ y ∈ List.insertionSort (· ≤ ·) l, y < 2 ^ 31 :=
        fun y hy => hl' y ((List.perm_insertionSort (· ≤ ·) l).mem_iff.1 hy)
      simp only [List.insertionSort, ih hl']
      exact crunch_orderedInsert_eq a ha _ hmem


/-- The scaled magnitude is strictly monotone in the (sign-stripped) bit
pattern: larger pattern, larger float magnitude. -/
theorem crunch_scaledMag_lt (a b : Nat) (hab : a < b) :
    Crunch.scaledMag a < Crunch.scaledMag b := by
  have hda : 2 ^ 23 * (a / 2 ^ 23) + a % 2 ^ 23 = a := Nat.div_add_mod a (2 ^ 23)
  have hdb : 2 ^ 23 * (b / 2 ^ 23) + b % 2 ^ 23 = b := Nat.div_add_mod b (2 ^ 23)
  have hma : a % 2 ^ 23 < 2 ^ 23 := Nat.mod_lt a (by norm_num)
  have hmb : b % 2 ^ 23 < 2 ^ 23 := Nat.mod_lt b (by norm_num)
  have hde : a / 2 ^ 23 ≤ b / 2 ^ 23 := Nat.div_le_div_right hab.le
  unfold Crunch.scaledMag
  rcases Nat.lt_or_ge (a / 2 ^ 23) (b / 2 ^ 23) with he | he
  · -- strictly smaller exponent field
    have hb1 : b / 2 ^ 23 ≠ 0 := by omega
    rw [if_neg hb1]
    have hlow : 2 ^ 23 * 2 ^ (b / 2 ^ 23 - 1) ≤
        (2 ^ 23 + b % 2 ^ 23) * 2 ^ (b / 2 ^ 23 - 1) :=
      Nat.mul_le_mul_right _ (by omega)
    rcases Nat.eq_zero_or_pos (a / 2 ^ 23) with ha0 | ha1
    · rw [if_pos ha0]
      calc a % 2 ^ 23 < 2 ^ 23 := hma
        _ ≤ 2 ^ 23 * 2 ^ (b / 2 ^ 23 - 1) :=
          Nat.le_mul_of_pos_right _ (Nat.pos_pow_of_pos _ (by norm_num))
        _ ≤ _ := hlow
    · rw [if_neg (by omega)]
      have h1 : (2 ^ 23 + a % 2 ^ 23) * 2 ^ (a / 2 ^ 23 - 1) <
          2 ^ 24 * 2 ^ (a / 2 ^ 23 - 1) :=
        (Nat.mul_lt_mul_right (Nat.pos_pow_of_pos _ (by norm_num))).2 (by omega)
      have h2 : (2 ^ 24) * 2 ^ (a / 2 ^ 23 - 1) ≤
          2 ^ 23 * 2 ^ (b / 2 ^ 23 - 1) := by
        rw [← Nat.pow_add, ← Nat.pow_add]
        exact Nat.pow_le_pow_right (by norm_num) (by omega)
      exact lt_of_lt_of_le h1 (le_trans h2 hlow)
  · -- equal exponent fields, so strictly smaller mantissa
    have he' : a / 2 ^ 23 = b / 2 ^ 23 := le_antisymm hde he
    have hm : a % 2 ^ 23 < b % 2 ^ 23 := by omega
    rcases Nat.eq_zero_or_pos (a / 2 ^ 23) with ha0 | ha1
    · rw [if_pos ha0, if_pos (by omega)]
      exact hm
    · rw [if_neg (by omega), if_neg (by omega), he']
      exact (Nat.mul_lt_mul_right (Nat.pos_pow_of_pos _ (by norm_num))).2
        (by omega)

/-- The decoded value is strictly monotone on sign-bit-clear patterns. -/
theorem crunch_floatVal_lt (a b : Nat) (ha : a < 2 ^ 31) (hb : b < 2 ^ 31)
    (hab : a < b) : Crunch.floatVal a < Crunch.floatVal b := by
  unfold Crunch.floatVal
  rw [if_pos ha, if_pos hb]
  have h : (Crunch.scaledMag a : ℚ) < (Crunch.scaledMag b : ℚ) := by
    exact_mod_cast crunch_scaledMag_lt a b hab
  exact (div_lt_div_iff_of_pos_right (by norm_num)).2 h

/-- The decoded value is monotone on sign-bit-clear patterns. -/
theorem crunch_floatVal_le (a b : Nat) (ha : a < 2 ^ 31) (hb : b < 2 ^ 31)
    (hab : a ≤ b) : Crunch.floatVal a ≤ Crunch.floatVal b := by
  rcases Nat.lt_or_ge a b with h | h
  · exact (crunch_floatVal_lt a b ha hb h).le
  · have : a = b := by omega
    rw [this]

/-- Mapping `floatVal` over a `≤`-sorted list of sign-bit-clear patterns
gives a list sorted by numeric value. -/
theorem crunch_sorted_map_floatVal :
    ∀ l : List Nat, l.Sorted (· ≤ ·) → (∀ x ∈ l, x < 2 ^ 31) →
      (l.map Crunch.floatVal).Sorted (· ≤ ·) := by
  intro l
  induction l with
  | nil => intro _ _; simp
  | cons a l ih =>
      intro hs hb
      have ha : a < 2 ^ 31 := hb a (by simp)
      have hb' : ∀ x ∈ l, x < 2 ^ 31 := fun x hx => hb x (by simp [hx])
      rw [List.map_cons, List.sorted_cons]
      refine ⟨?_, ih hs.of_cons hb'⟩
      intro q hq
      rcases List.mem_map.1 hq with ⟨x, hx, rfl⟩
      exact crunch_floatVal_le a x ha (hb' x hx)
        ((List.sorted_cons.1 hs).1 x hx)

/-- C6 counterexample: the claim quantifies over every column of
distinct values, including negative ones, where the type-punned
comparator is inconsistent: on the patterns of `-2.0`, `0.5` and `4.0`
it yields the cycle `-2.0 ≺ 0.5 ≺ 4.0 ≺ -2.0` (the last through signed
wrap-around), so the sort result depends on presentation order and two
permutations of the same three distinct values give different medians
(`4` versus `-2`). -/
theorem c6_median_perm_counterexample :
    Crunch.get_medianBits [3221225472, 1056964608, 1082130432] = some 4 ∧
      Crunch.get_medianBits [1056964608, 1082130432, 3221225472] =
        some (-2) ∧
      List.Perm [3221225472, 1056964608, 1082130432]
        [1056964608, 1082130432, 3221225472] ∧
      Crunch.get_medianBits [3221225472, 1056964608, 1082130432] ≠
        Crunch.get_medianBits [1056964608, 1082130432, 3221225472] := by
  have h1 : Crunch.get_medianBits [3221225472, 1056964608, 1082130432] =
      some 4 := by
    norm_num [Crunch.get_medianBits, Crunch.qsortBits, List.insertionSort,
      List.orderedInsert, Crunch.cmpLe, Crunch.compare, Crunch.toInt32,
      Crunch.wrap32, Crunch.floatVal, Crunch.scaledMag]
  have h2 : Crunch.get_medianBits [1056964608, 1082130432, 3221225472] =
      some (-2) := by
    norm_num [Crunch.get_medianBits, Crunch.qsortBits, List.insertionSort,
      List.orderedInsert, Crunch.cmpLe, Crunch.compare, Crunch.toInt32,
      Crunch.wrap32, Crunch.floatVal, Crunch.scaledMag]
  refine ⟨h1, h2, by decide, ?_⟩
  rw [h1, h2]
  norm_num

/-- C6 amended: on columns of sign-bit-clear (non-negative) patterns the
comparator is consistent and `get_median` is order-independent — every
permutation of the column yields the same median. -/
theorem c6_median_perm_nonneg (l1 l2 : List Nat)
    (hb : ∀ x ∈ l1, x < 2 ^ 31) (hp : List.Perm l1 l2) :
    Crunch.get_medianBits l1 = Crunch.get_medianBits l2 := by
  have hb2 : ∀ x ∈ l2, x < 2 ^ 31 := fun x hx => hb x (hp.mem_iff.2 hx)
  have hq1 : Crunch.qsortBits l1 = List.insertionSort (· ≤ ·) l1 :=
    crunch_insertionSort_eq l1 hb
  have hq2 : Crunch.qsortBits l2 = List.insertionSort (· ≤ ·) l2 :=
    crunch_insertionSort_eq l2 hb2
  have hperm : List.Perm (List.insertionSort (· ≤ ·) l1)
      (List.insertionSort (· ≤ ·) l2) :=
    ((List.perm_insertionSort (· ≤ ·) l1).trans hp).trans
      (List.perm_insertionSort (· ≤ ·) l2).symm
  have hsort : List.insertionSort (· ≤ ·) l1 =
      List.insertionSort (· ≤ ·) l2 :=
    List.eq_of_perm_of_sorted hperm
      (List.sorted_insertionSort (· ≤ ·) l1)
      (List.sorted_insertionSort (· ≤ ·) l2)
  unfold Crunch.get_medianBits
  rw [hq1, hq2, hsort, hp.length_eq]

/-- Witness for the amended C6 on a concrete non-negative column:
the patterns of `0.5` and `4.0` in either order give the same median. -/
theorem c6_median_perm_nonneg_witness :
    Crunch.get_medianBits [1056964608, 1082130432] =
      Crunch.get_medianBits [1082130432, 1056964608] :=
  c6_median_perm_nonneg [1056964608, 1082130432] [1082130432, 1056964608]
    (by decide) (by decide)

/-- C10: the type-punned comparator (`*(int *)a - *(int *)b` on the
float byte representations) agrees in sign with numeric comparison on
every pair of non-negative finite single-precision floats, and
consequently on columns of such floats the sort performed inside
`get_median` is in ascending numeric order. -/
theorem c10_compare_punned :
    (∀ a b : Nat, Crunch.NonnegFinite a → Crunch.NonnegFinite b →
      ((Crunch.compare a b < 0 ↔ Crunch.floatVal a < Crunch.floatVal b) ∧
        (Crunch.compare a b = 0 ↔ Crunch.floatVal a = Crunch.floatVal b))) ∧
      ∀ l : List Nat, (∀ x ∈ l, Crunch.NonnegFinite x) →
        ((Crunch.qsortBits l).map Crunch.floatVal).Sorted (· ≤ ·) := by
  constructor
  · intro a b ha hb
    rw [crunch_compare_nonneg a b ha.1 hb.1]
    constructor
    · constructor
      · intro h
        exact crunch_floatVal_lt a b ha.1 hb.1 (by omega)
      · intro h
        rcases Nat.lt_or_ge a b with hab | hab
        · omega
        · rcases Nat.lt_or_ge b a with hba | hba
          · exact absurd (crunch_floatVal_lt b a hb.1 ha.1 hba) (by linarith)
          · have : a = b := by omega
            subst this
            exact absurd h (lt_irrefl _)
    · constructor
      · intro h
        have : a = b := by omega
        rw [this]
      · intro h
        rcases Nat.lt_or_ge a b with hab | hab
        · exact absurd (crunch_floatVal_lt a b ha.1 hb.1 hab) (by linarith)
        · rcases Nat.lt_or_ge b a with hba | hba
          · exact absurd (crunch_floatVal_lt b a hb.1 ha.1 hba) (by linarith)
          · omega
  · intro l hl
    have hb : ∀ x ∈ l, x < 2 ^ 31 := fun x hx => (hl x hx).1
    rw [Crunch.qsortBits, crunch_insertionSort_eq l hb]
    refine crunch_sorted_map_floatVal _
      (List.sorted_insertionSort (· ≤ ·) l) ?_
    intro x hx
    exact hb x ((List.perm_insertionSort (· ≤ ·) l).mem_iff.1 hx)

/-- Witness for C10 on the patterns of `0.5` and `4.0`: the comparator
sign matches numeric order, and a concrete two-element column sorts
ascending. -/
theorem c10_compare_punned_witness :
    ((Crunch.compare 1056964608 1082130432 < 0 ↔
        Crunch.floatVal 1056964608 < Crunch.floatVal 1082130432) ∧
      (Crunch.compare 1056964608 1082130432 = 0 ↔
        Crunch.floatVal 1056964608 = Crunch.floatVal 1082130432)) ∧
      ((Crunch.qsortBits [1082130432, 1056964608]).map
        Crunch.floatVal).Sorted (· ≤ ·) :=
  ⟨c10_compare_punned.1 1056964608 1082130432 (by decide) (by decide),
    c10_compare_punned.2 [1082130432, 1056964608] (by decide)⟩

/-- C5: the claim says a row-merge step whose secondary buffer is
shorter than the shared byte offset signals `AlignmentError` and aborts
the row.  `fetch_data.c` has no `AlignmentError` (nor any error path) in
the merge loop: `write_line(barometric_press.buffer+output,
VALUE_READ_OFFSET)` simply dereferences the computed position.  On a
10-byte secondary buffer at shared offset 27 the first read is at
position 46 — past the buffer and its NUL terminator, an out-of-bounds
read (undefined behaviour, `none` in the model); in practice the loop
prints whatever bytes follow the allocation and continues the row. -/
theorem c5_short_secondary_eval :
    Fetch.write_line "0123456789".toList 27 19 = none := by decide

/-- If the buffer at `pos` continues with `c`, reading at `pos` yields
`c`. -/
theorem fetch_readByte_of_drop (buf : List Char) (pos : Nat) (c : Char)
    (rest : List Char) (h : buf.drop pos = c :: rest) :
    Fetch.readByte buf pos = some c := by
  have hlt : pos < buf.length := by
    by_contra hge
    rw [List.drop_eq_nil_of_le (by omega)] at h
    cases h
  have hget : buf.drop pos = buf[pos] :: buf.drop (pos + 1) :=
    List.drop_eq_getElem_cons hlt
  rw [hget] at h
  unfold Fetch.readByte
  rw [dif_pos hlt]
  exact congrArg some (List.cons.inj h).1

/-- The scan of `write_line` on a printable run followed by a
non-printable byte stops exactly at that byte. -/
theorem fetch_scanP_run (buf : List Char) (line : List Char)
    (hline : ∀ ch ∈ line, Fetch.cIsprint ch = true) :
    ∀ (pos fuel : Nat) (c : Char) (rest : List Char),
      buf.drop pos = line ++ c :: rest →
      Fetch.cIsprint c = false →
      line.length + 1 ≤ fuel →
      Fetch.scanP buf fuel pos = some (pos + line.length) := by
  induction line with
  | nil =>
      intro pos fuel c rest hdrop hc hfuel
      obtain ⟨fuel', rfl⟩ : ∃ k, fuel = k + 1 := by
        cases fuel with
        | zero => omega
        | succ k => exact ⟨k, rfl⟩
      rw [Fetch.scanP, fetch_readByte_of_drop buf pos c rest (by simpa using hdrop)]
      simp [hc]
  | cons a line ih =>
      intro pos fuel c rest hdrop hc hfuel
      simp only [List.length_cons] at hfuel ⊢
      obtain ⟨fuel', rfl⟩ : ∃ k, fuel = k + 1 := by
        cases fuel with
        | zero => omega
        | succ k => exact ⟨k, rfl⟩
      have ha : Fetch.cIsprint a = true := hline a (by simp)
      have hdrop' : buf.drop (pos + 1) = line ++ c :: rest := by
        have hlt : pos < buf.length := by
          by_contra hge
          rw [List.drop_eq_nil_of_le (by omega)] at hdrop
          cases hdrop
        have hget : buf.drop pos = buf[pos] :: buf.drop (pos + 1) :=
          List.drop_eq_getElem_cons hlt
        rw [hget] at hdrop
        exact (List.cons.inj hdrop).2
      rw [Fetch.scanP,
        fetch_readByte_of_drop buf pos a (line ++ c :: rest) (by simpa using hdrop)]
      simp only [ha, if_true]
      rw [ih (fun ch hch => hline ch (by simp [hch])) (pos + 1) fuel' c rest
        hdrop' hc (by omega)]
      congr 1
      omega

/-- From any offset whose remaining suffix is a well-formed sequence of
CR/LF-terminated printable lines, the merge loop consumes exactly those
lines and stops with the offset equal to the buffer's total length. -/
theorem fetch_mergeLoop_exact (buf : List Char) :
    ∀ (lines : List (List Char)) (pos : Nat),
      buf.drop pos = Fetch.mkBuf lines →
      pos ≤ buf.length →
      (∀ l ∈ lines, ∀ ch ∈ l, Fetch.cIsprint ch = true) →
      Fetch.mergeLoop buf (lines.length + 1) pos = some buf.length := by
  intro lines
  induction lines with
  | nil =>
      intro pos hdrop hle _
      have hlen : buf.length - pos = 0 := by
        have h := congrArg List.length hdrop
        simpa [Fetch.mkBuf] using h
      have hpos : pos = buf.length := by omega
      rw [Fetch.mergeLoop, if_neg (by omega), hpos]
  | cons l ls ih =>
      intro pos hdrop hle hpr
      have hdrop' : buf.drop pos =
          l ++ Char.ofNat 13 ::
            (Char.ofNat 10 :: Fetch.mkBuf ls) := by
        simpa [Fetch.mkBuf] using hdrop
      have hlen : buf.length - pos = l.length + 2 + (Fetch.mkBuf ls).length := by
        have h := congrArg List.length hdrop'
        simp at h
        omega
      have hscan : Fetch.scanP buf (buf.length + 1) (pos + 0) =
          some (pos + l.length) :=
        fetch_scanP_run buf l (hpr l (by simp)) (pos + 0) (buf.length + 1)
          (Char.ofNat 13) (Char.ofNat 10 :: Fetch.mkBuf ls)
          (by simpa using hdrop') (by decide) (by omega)
      have hwrite : Fetch.write_line buf pos 0 = some (l.length + 2) := by
        rw [Fetch.write_line, hscan]
        show some (pos + l.length + 2 - pos) = some (l.length + 2)
        congr 1
        omega
      rw [List.length_cons, Fetch.mergeLoop, if_pos (by omega), hwrite]
      have hdrop2 : buf.drop (pos + (l.length + 2)) = Fetch.mkBuf ls := by
        have h1 : buf.drop (pos + (l.length + 2)) =
            (buf.drop pos).drop (l.length + 2) := by
          rw [List.drop_drop]
        rw [h1, hdrop']
        have h2 : l ++ Char.ofNat 13 :: (Char.ofNat 10 :: Fetch.mkBuf ls) =
            (l ++ [Char.ofNat 13, Char.ofNat 10]) ++ Fetch.mkBuf ls := by
          simp
        rw [h2]
        have h3 : (l ++ [Char.ofNat 13, Char.ofNat 10]).length =
            l.length + 2 := by simp
        rw [← h3, List.drop_left]
      exact ih (pos + (l.length + 2)) hdrop2 (by omega)
        (fun m hm => hpr m (by simp [hm]))

/-- C9: for every finite primary source structured as CR/LF-terminated
printable lines (so each line consumes at least one byte — in fact at
least two), the merge loop of `main` terminates, and it stops exactly
when the shared byte offset — advanced after each row by the bytes
consumed from the primary line including its terminator — reaches the
primary source's total length.  `lines.length + 1` fuel steps suffice,
and the final offset equals the buffer length. -/
theorem c9_merge_terminates (lines : List (List Char))
    (h : ∀ l ∈ lines, ∀ ch ∈ l, Fetch.cIsprint ch = true) :
    Fetch.mergeLoop (Fetch.mkBuf lines) (lines.length + 1) 0 =
      some (Fetch.mkBuf lines).length :=
  fetch_mergeLoop_exact (Fetch.mkBuf lines) lines 0 (by simp)
    (by simp) h

/-- Witness for C9 on a two-line primary source in the interchange
format: the loop stops exactly at the 54-byte total length. -/
theorem c9_merge_terminates_witness :
    Fetch.mergeLoop
        (Fetch.mkBuf ["2015_02_03 09:02:34 38.86".toList,
          "2015_02_03 09:12:34 39.00".toList])
        (["2015_02_03 09:02:34 38.86".toList,
          "2015_02_03 09:12:34 39.00".toList].length + 1) 0 =
      some (Fetch.mkBuf ["2015_02_03 09:02:34 38.86".toList,
        "2015_02_03 09:12:34 39.00".toList]).length ∧
      (Fetch.mkBuf ["2015_02_03 09:02:34 38.86".toList,
        "2015_02_03 09:12:34 39.00".toList]).length = 54 :=
  ⟨c9_merge_terminates _ (by decide), by decide⟩
